import Mathlib

/-!
Verification development for the acspec record-resolution engine.

The definitions below are a shallow embedding of the Python sources
`acspec/utils.py` and `acspec/model.py`:

* the dependency orderer `topological_iteritems` (utils.py, lines 17-35)
  together with `_get_bases` (lines 10-14);
* the `TypeInfo` type-descriptor machinery, `validate_dict`,
  `schematics_field_descriptor` (model.py);
* the field injector `BaseModel.append_field` (model.py, lines 55-82);
* `ResolveableModel.resolve` (model.py, lines 237-251);
* `_find_base_classes` and `DEFAULT_MAPPINGS` (model.py, lines 254-283).

Python dictionaries are modelled as ordered association lists
(`List (String × _)`), which preserves the insertion-order semantics of
`dict`; Python sets are modelled as lists, since the code only ever uses
membership filtering and emptiness tests on them.  Exceptions are modelled
with `Except`; errors raised with formatted messages are modelled by
structured error values whose payload records exactly what the source
interpolates into the message.
-/

namespace Acspec

/-- A record spec as the dependency orderer sees it.  `payload` stands for the
body of the spec (its field table), which the orderer never inspects and only
passes through.

Modelled from the spec: the `bases` component reads the optional `bases`
option through the DSL accessors `has_option`/`get_option`
(`acspec/dsl.py`, which is not among the sources); per the spec each record
spec "may carry a `bases` list of capability/record names", so the accessor
pair is modelled as returning that list, empty when the option is absent. -/
structure RSpec where
  bases : List String
  payload : Nat
deriving DecidableEq, Repr

/-- `_get_bases(spec)` (utils.py, lines 10-14): the spec's declared bases.
The source wraps the list in `set(...)`; only membership removal
(`difference_update`) and emptiness are ever applied to it, for which the
plain list is an equivalent model. -/
def _get_bases (spec : RSpec) : List String :=
  spec.bases

/-- One scheduling pass of `topological_iteritems` (the body of the
`while pending` loop, utils.py lines 21-31).  A pending entry carries the
record name, its spec, and its remaining (not yet emitted) base names.
Returns `(next_pending, emitted_after, next_emitted)`:

* each entry first has the current `emitted` list removed from its bases
  (`bases.difference_update(emitted)`);
* if bases remain the entry stays pending, otherwise it is yielded and its
  name is appended to `emitted` - so records scanned later in the same pass
  already see it as emitted. -/
def one_pass :
    List (String × RSpec × List String) → List String →
      List (String × RSpec × List String) × List String × List (String × RSpec)
  | [], emitted => ([], emitted, [])
  | (name, spec, bases) :: rest, emitted =>
    let bases' := bases.filter (fun b => !emitted.contains b)
    -- Python tests `if bases:` - truthiness of a list is non-emptiness
    if bases' = [] then
      let r := one_pass rest (emitted ++ [name])
      (r.1, r.2.1, (name, spec) :: r.2.2)
    else
      let r := one_pass rest emitted
      ((name, spec, bases') :: r.1, r.2.1, r.2.2)

/-- Outcome of running the orderer to exhaustion.  `ok out` is the complete
yield sequence of the generator.  `cyclic ys stuck` records that the
generator yielded the prefix `ys` and then raised
`ValueError("Cyclic inheritance: ...")` formatting `stuck`, the pending
entries (with their remaining unmet bases) of the pass that emitted
nothing. -/
inductive TopoResult where
  | ok : List (String × RSpec) → TopoResult
  | cyclic : List (String × RSpec) → List (String × RSpec × List String) → TopoResult
deriving DecidableEq, Repr

/-- The `while pending` loop of `topological_iteritems`.  After each pass the
source replaces `emitted` by `next_emitted` (only the names yielded in that
pass), which is sound because the pass already removed all older emitted
names from every remaining entry.  `fuel` bounds the number of passes; every
successful pass strictly shrinks `pending`, so `pending.length` passes always
suffice and the fuel-exhaustion branch is unreachable from the entry point
below. -/
def topo_loop : Nat → List (String × RSpec × List String) → List String → TopoResult
  | _, [], _ => .ok []
  | 0, pending, _ => .cyclic [] pending
  | fuel + 1, pending@(_ :: _), emitted =>
    let r := one_pass pending emitted
    let next_pending := r.1
    let next_emitted := r.2.2
    -- Python tests `if not next_emitted:` - truthiness of a list is non-emptiness
    if next_emitted = [] then
      .cyclic [] next_pending
    else
      match topo_loop fuel next_pending (next_emitted.map Prod.fst) with
      | .ok out => .ok (next_emitted ++ out)
      | .cyclic ys stuck => .cyclic (next_emitted ++ ys) stuck

/-- `topological_iteritems(specs, pre_emitted)` (utils.py, lines 17-35),
run to exhaustion.  `specs` is the ordered input mapping; `pre_emitted`
seeds the emitted list (`emitted = pre_emitted[:]`). -/
def topological_iteritems (specs : List (String × RSpec)) (pre_emitted : List String) :
    TopoResult :=
  topo_loop specs.length (specs.map (fun p => (p.1, p.2, _get_bases p.2))) pre_emitted

/-- The yields the consumer of the generator observed, whether or not the
run ended in the cyclic-inheritance error. -/
def TopoResult.yields : TopoResult → List (String × RSpec)
  | .ok out => out
  | .cyclic ys _ => ys

/-- Projection of a pending entry back to the `(name, spec)` pair it was
created from. -/
def entryPair (en : String × RSpec × List String) : String × RSpec :=
  (en.1, en.2.1)

example :
    topological_iteritems [("b", ⟨["a"], 1⟩), ("a", ⟨[], 2⟩)] [] =
      .ok [("a", ⟨[], 2⟩), ("b", ⟨["a"], 1⟩)] := by decide

example :
    topological_iteritems [("a", ⟨["cap"], 0⟩)] ["cap"] =
      .ok [("a", ⟨["cap"], 0⟩)] := by decide

/-! ### Invariants of `one_pass` and `topo_loop` -/

/-- Every base of every record in the chain was available when the record was
yielded: it lies in the ambient set `s` or is the name of an earlier element
of the chain. -/
def SoundChain : List String → List (String × RSpec) → Prop
  | _, [] => True
  | s, (n, spec) :: ys => (∀ b ∈ spec.bases, b ∈ s) ∧ SoundChain (n :: s) ys

/-- A pending entry is coherent relative to an ambient set `s` of available
names: its remaining bases all come from its spec's declared bases, and every
declared base is either still remaining or already available. -/
def EntrySound (s : List String) (en : String × RSpec × List String) : Prop :=
  (∀ b ∈ en.2.2, b ∈ en.2.1.bases) ∧ (∀ b ∈ en.2.1.bases, b ∈ en.2.2 ∨ b ∈ s)

theorem entrySound_mono {s₁ s₂ : List String} {en : String × RSpec × List String}
    (hs : ∀ x ∈ s₁, x ∈ s₂) (h : EntrySound s₁ en) : EntrySound s₂ en := by
  refine ⟨h.1, fun b hb => ?_⟩
  rcases h.2 b hb with h' | h'
  · exact Or.inl h'
  · exact Or.inr (hs _ h')

theorem soundChain_mono {ys : List (String × RSpec)} :
    ∀ {s₁ s₂ : List String}, (∀ x ∈ s₁, x ∈ s₂) → SoundChain s₁ ys → SoundChain s₂ ys := by
  induction ys with
  | nil => intro s₁ s₂ _ _; trivial
  | cons hd tl ih =>
    intro s₁ s₂ hs h
    obtain ⟨n, spec⟩ := hd
    refine ⟨fun b hb => hs _ (h.1 b hb), ih (fun x hx => ?_) h.2⟩
    rcases List.mem_cons.mp hx with h' | h'
    · exact h' ▸ List.mem_cons_self _ _
    · exact List.mem_cons_of_mem _ (hs _ h')

theorem soundChain_append {xs ys : List (String × RSpec)} :
    ∀ {s : List String}, SoundChain s xs → SoundChain (xs.map Prod.fst ++ s) ys →
      SoundChain s (xs ++ ys) := by
  induction xs with
  | nil => intro s _ h; simpa using h
  | cons hd tl ih =>
    intro s hx hy
    obtain ⟨n, spec⟩ := hd
    refine ⟨hx.1, ih hx.2 (soundChain_mono (fun x hx => ?_) hy)⟩
    simp only [List.map_cons, List.cons_append, List.mem_cons, List.mem_append] at hx ⊢
    tauto

theorem soundChain_bases {ys : List (String × RSpec)} :
    ∀ {s : List String} {n : String} {spec : RSpec}, SoundChain s ys → (n, spec) ∈ ys →
      ∀ b ∈ spec.bases, b ∈ s ∨ b ∈ ys.map Prod.fst := by
  induction ys with
  | nil => intro _ _ _ _ h; exact absurd h (List.not_mem_nil _)
  | cons hd tl ih =>
    intro s n spec hchain hmem b hb
    obtain ⟨m, mspec⟩ := hd
    rcases List.mem_cons.mp hmem with h | h
    · simp only [Prod.mk.injEq] at h
      obtain ⟨rfl, rfl⟩ := h
      exact Or.inl (hchain.1 b hb)
    · rcases ih hchain.2 h b hb with h' | h'
      · rcases List.mem_cons.mp h' with h'' | h''
        · exact Or.inr (by simp [h''])
        · exact Or.inl h''
      · exact Or.inr (List.mem_cons_of_mem _ h')

theorem one_pass_length (p : List (String × RSpec × List String)) :
    ∀ e, (one_pass p e).1.length + (one_pass p e).2.2.length = p.length := by
  induction p with
  | nil => intro e; rfl
  | cons hd tl ih =>
    intro e
    obtain ⟨n, s, bs⟩ := hd
    by_cases h : bs.filter (fun b => !e.contains b) = []
    · simp only [one_pass, h, if_true, List.length_cons]
      have := ih (e ++ [n])
      omega
    · simp only [one_pass, h, if_false, List.length_cons]
      have := ih e
      omega

theorem one_pass_emitted_perm (p : List (String × RSpec × List String)) :
    ∀ e, ((one_pass p e).2.2 ++ (one_pass p e).1.map entryPair).Perm (p.map entryPair) := by
  induction p with
  | nil => intro e; rfl
  | cons hd tl ih =>
    intro e
    obtain ⟨n, s, bs⟩ := hd
    by_cases h : bs.filter (fun b => !e.contains b) = []
    · simp only [one_pass, h, if_true, List.map_cons, List.cons_append]
      exact (ih (e ++ [n])).cons _
    · simp only [one_pass, h, if_false, List.map_cons, entryPair]
      exact (List.perm_middle).trans ((ih e).cons _)

theorem one_pass_stuck_bases (p : List (String × RSpec × List String)) :
    ∀ e en, en ∈ (one_pass p e).1 → en.2.2 ≠ [] := by
  induction p with
  | nil => intro e en h; exact absurd h (List.not_mem_nil _)
  | cons hd tl ih =>
    intro e en hmem
    obtain ⟨n, s, bs⟩ := hd
    by_cases h : bs.filter (fun b => !e.contains b) = []
    · simp only [one_pass, h, if_true] at hmem
      exact ih _ _ hmem
    · simp only [one_pass, h, if_false, List.mem_cons] at hmem
      rcases hmem with rfl | hmem
      · exact h
      · exact ih _ _ hmem

theorem one_pass_ready_mem (p : List (String × RSpec × List String)) :
    ∀ e n sp bs, (n, sp, bs) ∈ p → (∀ b ∈ bs, b ∈ e) →
      (n, sp) ∈ (one_pass p e).2.2 := by
  induction p with
  | nil => intro _ _ _ _ h; exact absurd h (List.not_mem_nil _)
  | cons hd tl ih =>
    intro e n sp bs hmem hready
    obtain ⟨m, ms, mbs⟩ := hd
    rcases List.mem_cons.mp hmem with heq | hmem
    · simp only [Prod.mk.injEq] at heq
      obtain ⟨rfl, rfl, rfl⟩ := heq
      have hemp : bs.filter (fun b => !e.contains b) = [] := by
        rw [List.filter_eq_nil_iff]
        intro b hb
        simpa using hready b hb
      simp only [one_pass, hemp, if_true]
      exact List.mem_cons_self _ _
    · by_cases h : mbs.filter (fun b => !e.contains b) = []
      · simp only [one_pass, h, if_true]
        exact List.mem_cons_of_mem _
          (ih (e ++ [m]) n sp bs hmem (fun b hb => List.mem_append_left _ (hready b hb)))
      · simp only [one_pass, h, if_false]
        exact ih e n sp bs hmem hready

theorem one_pass_sound (p : List (String × RSpec × List String)) :
    ∀ e s, (∀ x ∈ e, x ∈ s) → (∀ en ∈ p, EntrySound s en) →
      SoundChain s (one_pass p e).2.2 ∧
        ∀ en ∈ (one_pass p e).1,
          EntrySound ((one_pass p e).2.2.map Prod.fst ++ s) en := by
  induction p with
  | nil =>
    intro e s _ _
    exact ⟨trivial, fun en h => absurd h (List.not_mem_nil _)⟩
  | cons hd tl ih =>
    intro e s he hp
    obtain ⟨n, nsp, bs⟩ := hd
    have hhd : EntrySound s (n, nsp, bs) := hp _ (List.mem_cons_self _ _)
    have htl : ∀ en ∈ tl, EntrySound s en := fun en h => hp _ (List.mem_cons_of_mem _ h)
    by_cases h : bs.filter (fun b => !e.contains b) = []
    · -- the head is emitted; later entries see `n` as emitted
      have hbs : ∀ b ∈ bs, b ∈ e := by
        intro b hb
        by_contra hbe
        have hmem : b ∈ bs.filter (fun b => !e.contains b) :=
          List.mem_filter.mpr ⟨hb, by simpa using hbe⟩
        rw [h] at hmem
        exact absurd hmem (List.not_mem_nil _)
      have hbases : ∀ b ∈ nsp.bases, b ∈ s := by
        intro b hb
        rcases hhd.2 b hb with h' | h'
        · exact he _ (hbs _ h')
        · exact h'
      have ihr := ih (e ++ [n]) (n :: s)
        (by
          intro x hx
          rcases List.mem_append.mp hx with h' | h'
          · exact List.mem_cons_of_mem _ (he _ h')
          · simp only [List.mem_singleton] at h'
            simp [h'])
        (fun en hen => entrySound_mono (fun x hx => List.mem_cons_of_mem _ hx) (htl en hen))
      constructor
      · simp only [one_pass, h, if_true]
        exact ⟨hbases, ihr.1⟩
      · simp only [one_pass, h, if_true, List.map_cons]
        intro en hen
        refine entrySound_mono (fun x hx => ?_) (ihr.2 en hen)
        simp only [List.cons_append, List.mem_cons, List.mem_append] at hx ⊢
        tauto
    · -- the head stays pending with its remaining bases
      have ihr := ih e s he htl
      constructor
      · simp only [one_pass, h, if_false]
        exact ihr.1
      · simp only [one_pass, h, if_false, List.mem_cons]
        rintro en (rfl | hen)
        · constructor
          · intro b hb
            exact hhd.1 b (List.mem_of_mem_filter hb)
          · intro b hb
            rcases hhd.2 b hb with h' | h'
            · by_cases hbe : b ∈ e
              · exact Or.inr (List.mem_append_right _ (he _ hbe))
              · refine Or.inl ?_
                exact List.mem_filter.mpr ⟨h', by simpa using hbe⟩
            · exact Or.inr (List.mem_append_right _ h')
        · exact ihr.2 en hen

/-- Master invariant of the scheduling loop.  Relative to an ambient set `s`
of available names (covering the current `emitted` list) and a coherent
pending list, a terminating run satisfies: the yields are a sound chain over
`s`; yields and stuck entries together are a permutation of the pending
records; and on the cyclic outcome the stuck list is non-empty and every
stuck entry still carries a non-empty subset of its declared bases. -/
theorem topo_loop_spec :
    ∀ (fuel : Nat) (p : List (String × RSpec × List String)) (e s : List String),
      p.length ≤ fuel →
      (∀ x ∈ e, x ∈ s) →
      (∀ en ∈ p, EntrySound s en) →
      (∀ out, topo_loop fuel p e = .ok out →
          SoundChain s out ∧ out.Perm (p.map entryPair)) ∧
      (∀ ys stuck, topo_loop fuel p e = .cyclic ys stuck →
          SoundChain s ys ∧ (ys ++ stuck.map entryPair).Perm (p.map entryPair) ∧
          stuck ≠ [] ∧
          ∀ en ∈ stuck, en.2.2 ≠ [] ∧ ∀ b ∈ en.2.2, b ∈ en.2.1.bases) := by
  intro fuel
  induction fuel with
  | zero =>
    intro p e s hlen _ _
    have hp0 : p = [] := List.length_eq_zero.mp (Nat.le_zero.mp hlen)
    subst hp0
    constructor
    · intro out hout
      simp only [topo_loop, TopoResult.ok.injEq] at hout
      subst hout
      exact ⟨trivial, by simp⟩
    · intro ys stuck h
      simp only [topo_loop] at h
      exact absurd h (by simp)
  | succ fuel ih =>
    intro p e s hlen he hp
    cases p with
    | nil =>
      constructor
      · intro out hout
        simp only [topo_loop, TopoResult.ok.injEq] at hout
        subst hout
        exact ⟨trivial, by simp⟩
      · intro ys stuck h
        simp only [topo_loop] at h
        exact absurd h (by simp)
    | cons hd tl =>
      have heq : topo_loop (fuel + 1) (hd :: tl) e =
          (if (one_pass (hd :: tl) e).2.2 = [] then
            TopoResult.cyclic [] (one_pass (hd :: tl) e).1
          else
            match topo_loop fuel (one_pass (hd :: tl) e).1
                (((one_pass (hd :: tl) e).2.2).map Prod.fst) with
            | .ok out => .ok ((one_pass (hd :: tl) e).2.2 ++ out)
            | .cyclic ys stuck =>
                .cyclic ((one_pass (hd :: tl) e).2.2 ++ ys) stuck) := rfl
      have hsound := one_pass_sound (hd :: tl) e s he hp
      have hperm := one_pass_emitted_perm (hd :: tl) e
      have hlen1 := one_pass_length (hd :: tl) e
      by_cases hemp : (one_pass (hd :: tl) e).2.2 = []
      · rw [heq, if_pos hemp]
        constructor
        · intro out hout
          exact absurd hout (by simp)
        · intro ys stuck h
          injection h with h1 h2
          subst h1; subst h2
          refine ⟨trivial, ?_, ?_, ?_⟩
          · simpa [hemp] using hperm
          · intro hnp0
            rw [hnp0, hemp] at hlen1
            simp at hlen1
          · intro en hen
            exact ⟨one_pass_stuck_bases _ _ _ hen, fun b hb => (hsound.2 en hen).1 b hb⟩
      · rw [heq, if_neg hemp]
        have hlt : (one_pass (hd :: tl) e).1.length ≤ fuel := by
          have hnee : (one_pass (hd :: tl) e).2.2.length ≠ 0 := by
            simpa [List.length_eq_zero] using hemp
          simp only [List.length_cons] at hlen1 hlen
          omega
        have ihr := ih (one_pass (hd :: tl) e).1
          (((one_pass (hd :: tl) e).2.2).map Prod.fst)
          ((((one_pass (hd :: tl) e).2.2).map Prod.fst) ++ s) hlt
          (fun x hx => List.mem_append_left _ hx)
          hsound.2
        constructor
        · intro out hout
          split at hout
          · rename_i out' hrec
            injection hout with h1
            subst h1
            obtain ⟨hso, hpe⟩ := ihr.1 out' hrec
            refine ⟨soundChain_append hsound.1 hso, ?_⟩
            exact (hpe.append_left _).trans hperm
          · rename_i ys' stuck' hrec
            exact absurd hout (by simp)
        · intro ys stuck h
          split at h
          · rename_i out' hrec
            exact absurd h (by simp)
          · rename_i ys' stuck' hrec
            injection h with h1 h2
            subst h1; subst h2
            obtain ⟨hc1, hc2, hc3, hc4⟩ := ihr.2 ys' stuck' hrec
            refine ⟨soundChain_append hsound.1 hc1, ?_, hc3, hc4⟩
            rw [List.append_assoc]
            exact (hc2.append_left _).trans hperm

theorem one_pass_baseless (p : List (String × RSpec × List String)) :
    ∀ e, (∀ en ∈ p, en.2.1.bases = [] → en.2.2 = []) →
      (one_pass p e).2.2.filter (fun q => q.2.bases.isEmpty) =
          (p.map entryPair).filter (fun q => q.2.bases.isEmpty) ∧
        ∀ en ∈ (one_pass p e).1, en.2.1.bases ≠ [] := by
  induction p with
  | nil =>
    intro e _
    exact ⟨rfl, fun en h => absurd h (List.not_mem_nil _)⟩
  | cons hd tl ih =>
    intro e hp
    obtain ⟨n, s, bs⟩ := hd
    have hhd : s.bases = [] → bs = [] := hp _ (List.mem_cons_self _ _)
    have htl : ∀ en ∈ tl, en.2.1.bases = [] → en.2.2 = [] :=
      fun en h => hp _ (List.mem_cons_of_mem _ h)
    by_cases h : bs.filter (fun b => !e.contains b) = []
    · have ihr := ih (e ++ [n]) htl
      constructor
      · simp only [one_pass, h, if_true, List.map_cons, List.filter_cons, entryPair]
        split
        · rw [ihr.1]
        · rw [ihr.1]
      · simp only [one_pass, h, if_true]
        exact ihr.2
    · have hb : s.bases ≠ [] := by
        intro hh
        rw [hhd hh] at h
        exact h rfl
      have ihr := ih e htl
      constructor
      · simp only [one_pass, h, if_false, List.map_cons, List.filter_cons, entryPair]
        have hbf : (s.bases.isEmpty : Bool) = false := by
          simpa [List.isEmpty_iff] using hb
        simp only [hbf]
        exact ihr.1
      · simp only [one_pass, h, if_false, List.mem_cons]
        rintro en (rfl | hen)
        · exact hb
        · exact ihr.2 en hen

theorem topo_loop_filter :
    ∀ (fuel : Nat) (p : List (String × RSpec × List String)) (e : List String),
      p.length ≤ fuel →
      (∀ en ∈ p, en.2.1.bases = [] → en.2.2 = []) →
      ∀ out, topo_loop fuel p e = .ok out →
        out.filter (fun q => q.2.bases.isEmpty) =
          (p.map entryPair).filter (fun q => q.2.bases.isEmpty) := by
  intro fuel
  induction fuel with
  | zero =>
    intro p e hlen _ out hout
    have hp0 : p = [] := List.length_eq_zero.mp (Nat.le_zero.mp hlen)
    subst hp0
    simp only [topo_loop, TopoResult.ok.injEq] at hout
    subst hout
    rfl
  | succ fuel ih =>
    intro p e hlen hp out hout
    cases p with
    | nil =>
      simp only [topo_loop, TopoResult.ok.injEq] at hout
      subst hout
      rfl
    | cons hd tl =>
      have heq : topo_loop (fuel + 1) (hd :: tl) e =
          (if (one_pass (hd :: tl) e).2.2 = [] then
            TopoResult.cyclic [] (one_pass (hd :: tl) e).1
          else
            match topo_loop fuel (one_pass (hd :: tl) e).1
                (((one_pass (hd :: tl) e).2.2).map Prod.fst) with
            | .ok out => .ok ((one_pass (hd :: tl) e).2.2 ++ out)
            | .cyclic ys stuck =>
                .cyclic ((one_pass (hd :: tl) e).2.2 ++ ys) stuck) := rfl
      have hbl := one_pass_baseless (hd :: tl) e hp
      have hlen1 := one_pass_length (hd :: tl) e
      rw [heq] at hout
      by_cases hemp : (one_pass (hd :: tl) e).2.2 = []
      · rw [if_pos hemp] at hout
        exact absurd hout (by simp)
      · rw [if_neg hemp] at hout
        split at hout
        · rename_i out' hrec
          injection hout with h1
          subst h1
          have hlt : (one_pass (hd :: tl) e).1.length ≤ fuel := by
            have : (one_pass (hd :: tl) e).2.2.length ≠ 0 := by
              simpa [List.length_eq_zero] using hemp
            simp only [List.length_cons] at hlen1 hlen
            omega
          have hnp : ∀ en ∈ (one_pass (hd :: tl) e).1, en.2.1.bases = [] → en.2.2 = [] :=
            fun en hen hb => absurd hb (hbl.2 en hen)
          have hrec' := ih (one_pass (hd :: tl) e).1
            (((one_pass (hd :: tl) e).2.2).map Prod.fst) hlt hnp out' hrec
          have hempty : ((one_pass (hd :: tl) e).1.map entryPair).filter
              (fun q => q.2.bases.isEmpty) = [] := by
            rw [List.filter_eq_nil_iff]
            intro q hq
            obtain ⟨en, hen, rfl⟩ := List.mem_map.mp hq
            simpa [entryPair, List.isEmpty_iff] using hbl.2 en hen
          rw [List.filter_append, hrec', hempty, List.append_nil, hbl.1]
        · rename_i ys' stuck' hrec
          exact absurd hout (by simp)

/-- The initial pending list projects back onto the input mapping. -/
theorem initPending_proj (specs : List (String × RSpec)) :
    (specs.map (fun q => (q.1, q.2, _get_bases q.2))).map entryPair = specs := by
  induction specs with
  | nil => rfl
  | cons hd tl ih => simp [entryPair, ih]

/-- Every initial pending entry is coherent: its remaining bases are exactly
its declared bases. -/
theorem initPending_sound (specs : List (String × RSpec)) (s : List String) :
    ∀ en ∈ specs.map (fun q => (q.1, q.2, _get_bases q.2)), EntrySound s en := by
  intro en hen
  obtain ⟨q, _, rfl⟩ := List.mem_map.mp hen
  exact ⟨fun b hb => hb, fun b hb => Or.inl hb⟩

/-- `topo_loop_spec` instantiated at the entry point `topological_iteritems`:
the ambient set of available names is the pre-emitted seed. -/
theorem topological_iteritems_spec (specs : List (String × RSpec)) (pre : List String) :
    (∀ out, topological_iteritems specs pre = .ok out →
        SoundChain pre out ∧ out.Perm specs) ∧
    (∀ ys stuck, topological_iteritems specs pre = .cyclic ys stuck →
        SoundChain pre ys ∧ (ys ++ stuck.map entryPair).Perm specs ∧ stuck ≠ [] ∧
        ∀ en ∈ stuck, en.2.2 ≠ [] ∧ ∀ b ∈ en.2.2, b ∈ en.2.1.bases) := by
  have h := topo_loop_spec specs.length
    (specs.map (fun q => (q.1, q.2, _get_bases q.2))) pre pre
    (by simp) (fun x hx => hx) (initPending_sound specs pre)
  rw [initPending_proj] at h
  exact h

/-- In a mapping with distinct keys, a key determines its value. -/
theorem keys_nodup_unique {l : List (String × RSpec)} (h : (l.map Prod.fst).Nodup)
    {k : String} {v w : RSpec} (hv : (k, v) ∈ l) (hw : (k, w) ∈ l) : v = w := by
  induction l with
  | nil => exact absurd hv (List.not_mem_nil _)
  | cons hd tl ih =>
    obtain ⟨a, b⟩ := hd
    simp only [List.map_cons, List.nodup_cons] at h
    rcases List.mem_cons.mp hv with hv' | hv' <;> rcases List.mem_cons.mp hw with hw' | hw'
    · simp only [Prod.mk.injEq] at hv' hw'
      rw [hv'.2, hw'.2]
    · simp only [Prod.mk.injEq] at hv'
      exact absurd (hv'.1 ▸ List.mem_map_of_mem Prod.fst hw') h.1
    · simp only [Prod.mk.injEq] at hw'
      exact absurd (hw'.1 ▸ List.mem_map_of_mem Prod.fst hv') h.1
    · exact ih h.2 hv' hw'

/-- No member of a set `c` of names, each of which has (in every spec it is
yielded with) some base inside `c`, can occur in a sound chain whose ambient
set is disjoint from `c`. -/
theorem soundChain_cycle_free {c : List String} {ys : List (String × RSpec)} :
    ∀ {s : List String}, SoundChain s ys →
      (∀ x ∈ c, x ∉ s) →
      (∀ x sp, x ∈ c → (x, sp) ∈ ys → ∃ y ∈ c, y ∈ sp.bases) →
      ∀ x ∈ c, x ∉ ys.map Prod.fst := by
  induction ys with
  | nil => intro s _ _ _ x _ h; exact absurd h (List.not_mem_nil _)
  | cons hd tl ih =>
    intro s hchain hdisj hcyc
    obtain ⟨m, msp⟩ := hd
    have hm : m ∉ c := by
      intro hmc
      obtain ⟨y, hyc, hyb⟩ := hcyc m msp hmc (List.mem_cons_self _ _)
      exact hdisj y hyc (hchain.1 y hyb)
    intro x hx hmem
    simp only [List.map_cons, List.mem_cons] at hmem
    rcases hmem with rfl | hmem
    · exact hm hx
    · refine ih hchain.2 (fun z hz => ?_) (fun x' sp hx' hmem' =>
        hcyc x' sp hx' (List.mem_cons_of_mem _ hmem')) x hx hmem
      intro hzs
      rcases List.mem_cons.mp hzs with rfl | hzs
      · exact hm hz
      · exact hdisj z hz hzs

/-- A record yielded by the very first pass is among the yields of the whole
run, whatever the outcome. -/
theorem topo_loop_yields_pass1 (fuel : Nat) (p : List (String × RSpec × List String))
    (e : List String) (n : String) (sp : RSpec)
    (hm : (n, sp) ∈ (one_pass p e).2.2) :
    (n, sp) ∈ (topo_loop (fuel + 1) p e).yields := by
  cases p with
  | nil => exact absurd hm (List.not_mem_nil _)
  | cons hd tl =>
    have heq : topo_loop (fuel + 1) (hd :: tl) e =
        (if (one_pass (hd :: tl) e).2.2 = [] then
          TopoResult.cyclic [] (one_pass (hd :: tl) e).1
        else
          match topo_loop fuel (one_pass (hd :: tl) e).1
              (((one_pass (hd :: tl) e).2.2).map Prod.fst) with
          | .ok out => .ok ((one_pass (hd :: tl) e).2.2 ++ out)
          | .cyclic ys stuck =>
              .cyclic ((one_pass (hd :: tl) e).2.2 ++ ys) stuck) := rfl
    rw [heq]
    have hemp : (one_pass (hd :: tl) e).2.2 ≠ [] := by
      intro h0
      rw [h0] at hm
      exact absurd hm (List.not_mem_nil _)
    rw [if_neg hemp]
    split
    · exact List.mem_append_left _ hm
    · exact List.mem_append_left _ hm

/-! ### Claims about the dependency orderer (C1, C2, C3) -/

/-- C1, counterexample.  The claim states that a record whose bases include a
capability name absent from the input set is still emitted and that the
ordering never fails on account of that name.  On the code, with the single
record `a` listing the base `cap` (not a record name, and no pre-emitted
seed), `cap` is never removed from the remaining bases, the pass emits
nothing, and the orderer raises the cyclic-inheritance error without ever
emitting `a`. -/
theorem c1_counterexample :
    topological_iteritems [("a", ⟨["cap"], 0⟩)] [] =
      .cyclic [] [("a", ⟨["cap"], 0⟩, ["cap"])] := by decide

/-- C1 (amended).  The orderer treats a declared base name as a dependency
edge unconditionally; an edge is satisfied only by the pre-emitted seed set
or by emitting a record of that name.  Hence (i) a record all of whose bases
lie in the seed set is emitted (already in the first pass), and (ii) a record
one of whose bases is neither a record name of the input set nor in the seed
set is never emitted: the run ends in the cyclic-inheritance error with that
record among the stuck entries.  Capability names are not skipped by the sort
itself; they must be covered by the seed set. -/
theorem c1_base_edges_amended (specs : List (String × RSpec)) (pre : List String) :
    (∀ n sp, (n, sp) ∈ specs → (∀ b ∈ sp.bases, b ∈ pre) →
        (n, sp) ∈ (topological_iteritems specs pre).yields) ∧
    (∀ n sp b, (n, sp) ∈ specs → b ∈ sp.bases → b ∉ specs.map Prod.fst → b ∉ pre →
        ∃ ys stuck, topological_iteritems specs pre = .cyclic ys stuck ∧
          (n, sp) ∉ ys ∧ (n, sp) ∈ stuck.map entryPair) := by
  constructor
  · intro n sp hmem hready
    cases specs with
    | nil => exact absurd hmem (List.not_mem_nil _)
    | cons hd tl =>
      have hinit : (n, sp, _get_bases sp) ∈
          (hd :: tl).map (fun q => (q.1, q.2, _get_bases q.2)) :=
        List.mem_map.mpr ⟨(n, sp), hmem, rfl⟩
      have h1 := one_pass_ready_mem
        ((hd :: tl).map (fun q => (q.1, q.2, _get_bases q.2))) pre n sp
        (_get_bases sp) hinit hready
      exact topo_loop_yields_pass1 tl.length _ pre n sp h1
  · intro n sp b hmem hb hbn hbp
    have hspec := topological_iteritems_spec specs pre
    cases hres : topological_iteritems specs pre with
    | ok out =>
      exfalso
      obtain ⟨hchain, hperm⟩ := hspec.1 out hres
      have hmo : (n, sp) ∈ out := hperm.mem_iff.mpr hmem
      rcases soundChain_bases hchain hmo b hb with h' | h'
      · exact hbp h'
      · apply hbn
        obtain ⟨q, hq, rfl⟩ := List.mem_map.mp h'
        exact List.mem_map_of_mem Prod.fst (hperm.mem_iff.mp hq)
    | cyclic ys stuck =>
      obtain ⟨hchain, hperm, _, _⟩ := hspec.2 ys stuck hres
      have hnotys : (n, sp) ∉ ys := by
        intro hmo
        rcases soundChain_bases hchain hmo b hb with h' | h'
        · exact hbp h'
        · apply hbn
          obtain ⟨q, hq, rfl⟩ := List.mem_map.mp h'
          exact List.mem_map_of_mem Prod.fst
            (hperm.mem_iff.mp (List.mem_append_left _ hq))
      refine ⟨ys, stuck, rfl, hnotys, ?_⟩
      have hin : (n, sp) ∈ ys ++ stuck.map entryPair := hperm.mem_iff.mpr hmem
      rcases List.mem_append.mp hin with h' | h'
      · exact absurd h' hnotys
      · exact h'

/-- C1, witness.  Both parts of the amended claim applied at concrete inputs:
the record `a` with the non-record base `cap` and no seed ends stuck and
unemitted; the record `b` with the same base is emitted once `cap` is in the
pre-emitted seed. -/
theorem c1_witness :
    (∃ ys stuck,
        topological_iteritems [("a", ⟨["cap"], 0⟩)] [] = .cyclic ys stuck ∧
          ("a", (⟨["cap"], 0⟩ : RSpec)) ∉ ys ∧
          ("a", (⟨["cap"], 0⟩ : RSpec)) ∈ stuck.map entryPair) ∧
    ("b", (⟨["cap"], 0⟩ : RSpec)) ∈
      (topological_iteritems [("b", ⟨["cap"], 0⟩)] ["cap"]).yields :=
  ⟨(c1_base_edges_amended [("a", ⟨["cap"], 0⟩)] []).2 "a" ⟨["cap"], 0⟩ "cap"
      (by decide) (by decide) (by decide) (by decide),
    (c1_base_edges_amended [("b", ⟨["cap"], 0⟩)] ["cap"]).1 "b" ⟨["cap"], 0⟩
      (by decide) (by decide)⟩

/-- C2, counterexample.  The claim states that ties among simultaneously
ready records are broken by input order.  In the input below, `x` and `y`
declare the identical base list `[d]`, so both become ready at the same
moment - when `d` is emitted - and `x` precedes `y` in input order, yet the
output is `d, y, x`: `y` is emitted during the first left-to-right pass
(it is scanned after `d` was emitted inside that same pass) while `x`,
scanned before `d`, is postponed to the second pass. -/
theorem c2_counterexample :
    topological_iteritems [("x", ⟨["d"], 1⟩), ("d", ⟨[], 2⟩), ("y", ⟨["d"], 3⟩)] [] =
      .ok [("d", ⟨[], 2⟩), ("y", ⟨["d"], 3⟩), ("x", ⟨["d"], 1⟩)] := by decide

/-- C2 (amended).  For every input mapping on which the orderer (with no
pre-emitted seed) runs to completion, it yields each input record exactly
once as its (name, spec) pair (the output is a permutation of the input);
every declared base of a yielded record is the name of an earlier-yielded
record - in particular the bases that are record names of the input set are
yielded before their dependent; and among themselves the records that
declare no bases at all are emitted in input order.  Ties between records
whose bases complete mid-pass are broken by the scan position, not globally
by input order (see the counterexample). -/
theorem c2_orderer_exact_and_ordered (specs : List (String × RSpec))
    (out : List (String × RSpec))
    (h : topological_iteritems specs [] = .ok out) :
    out.Perm specs ∧ SoundChain [] out ∧
      out.filter (fun q => q.2.bases.isEmpty) =
        specs.filter (fun q => q.2.bases.isEmpty) := by
  obtain ⟨hchain, hperm⟩ := (topological_iteritems_spec specs []).1 out h
  refine ⟨hperm, hchain, ?_⟩
  have h' : topo_loop specs.length
      (specs.map (fun q => (q.1, q.2, _get_bases q.2))) [] = .ok out := h
  have hf := topo_loop_filter specs.length
    (specs.map (fun q => (q.1, q.2, _get_bases q.2))) []
    (by simp)
    (fun en hen => by
      obtain ⟨q, _, rfl⟩ := List.mem_map.mp hen
      exact fun hb => hb)
    out h'
  rw [initPending_proj] at hf
  exact hf

/-- C2, witness.  The amended claim applied to the two-record input
`b (bases [a]), a`: the run completes with output `a, b`, a permutation of
the input in which every base precedes its dependent. -/
theorem c2_witness :
    [("a", (⟨[], 2⟩ : RSpec)), ("b", (⟨["a"], 1⟩ : RSpec))].Perm
        [("b", ⟨["a"], 1⟩), ("a", ⟨[], 2⟩)] ∧
      SoundChain [] [("a", ⟨[], 2⟩), ("b", ⟨["a"], 1⟩)] ∧
      [("a", (⟨[], 2⟩ : RSpec)), ("b", (⟨["a"], 1⟩ : RSpec))].filter
          (fun q => q.2.bases.isEmpty) =
        [("b", (⟨["a"], 1⟩ : RSpec)), ("a", (⟨[], 2⟩ : RSpec))].filter
          (fun q => q.2.bases.isEmpty) :=
  c2_orderer_exact_and_ordered [("b", ⟨["a"], 1⟩), ("a", ⟨[], 2⟩)]
    [("a", ⟨[], 2⟩), ("b", ⟨["a"], 1⟩)] (by decide)

/-- C3, counterexample.  The claim states that a cyclic input always fails
before any record type has been constructed.  With the input `a` (no bases),
`b (bases [c])`, `c (bases [b])`, the generator yields `a` - which phase 1
of the orchestrator immediately turns into a record type (spec 4.6) - and
only then raises the cyclic-inheritance error for the stuck pair `b, c`. -/
theorem c3_counterexample :
    topological_iteritems [("a", ⟨[], 0⟩), ("b", ⟨["c"], 1⟩), ("c", ⟨["b"], 2⟩)] [] =
      .cyclic [("a", ⟨[], 0⟩)] [("b", ⟨["c"], 1⟩, ["c"]), ("c", ⟨["b"], 2⟩, ["b"])] := by
  decide

/-- C3 (amended).  For every input mapping with distinct record names whose
record-name inheritance graph contains a cycle disjoint from the pre-emitted
seed (`c` lists the cycle members: each is a record name outside the seed
whose spec declares some other member as a base), the run always ends in the
cyclic-inheritance error; no cycle member is ever emitted - each is reported
among the stuck entries, which all carry a non-empty subset of their declared
bases as unmet dependencies.  Records not blocked by the cycle may however be
emitted (and hence built by phase 1) before the failure, as the
counterexample shows. -/
theorem c3_cycles_always_fail (specs : List (String × RSpec)) (pre : List String)
    (c : List String) (hnd : (specs.map Prod.fst).Nodup) (hc0 : c ≠ [])
    (hc : ∀ x ∈ c, x ∉ pre ∧ ∃ sp, (x, sp) ∈ specs ∧ ∃ y ∈ c, y ∈ sp.bases) :
    ∃ ys stuck, topological_iteritems specs pre = .cyclic ys stuck ∧
      (∀ x ∈ c, x ∉ ys.map Prod.fst ∧ x ∈ stuck.map (fun en => en.1)) ∧
      ∀ en ∈ stuck, en.2.2 ≠ [] ∧ ∀ b ∈ en.2.2, b ∈ en.2.1.bases := by
  have hspec := topological_iteritems_spec specs pre
  cases hres : topological_iteritems specs pre with
  | ok out =>
    exfalso
    obtain ⟨hchain, hperm⟩ := hspec.1 out hres
    obtain ⟨x₀, hx₀⟩ := List.exists_mem_of_ne_nil c hc0
    obtain ⟨_, sp₀, hsp₀, _⟩ := hc x₀ hx₀
    have hcycfree := soundChain_cycle_free hchain (fun z hz => (hc z hz).1)
      (fun x sp hx hmem => by
        obtain ⟨_, sp', hsp', y, hy, hyb⟩ := hc x hx
        have hxs : (x, sp) ∈ specs := hperm.mem_iff.mp hmem
        rw [keys_nodup_unique hnd hxs hsp']
        exact ⟨y, hy, hyb⟩)
    exact hcycfree x₀ hx₀
      (List.mem_map_of_mem Prod.fst (hperm.mem_iff.mpr hsp₀))
  | cyclic ys stuck =>
    obtain ⟨hchain, hperm, _, hstuck⟩ := hspec.2 ys stuck hres
    have hcycfree : ∀ x ∈ c, x ∉ ys.map Prod.fst :=
      soundChain_cycle_free hchain (fun z hz => (hc z hz).1)
        (fun x sp hx hmem => by
          obtain ⟨_, sp', hsp', y, hy, hyb⟩ := hc x hx
          have hxs : (x, sp) ∈ specs :=
            hperm.mem_iff.mp (List.mem_append_left _ hmem)
          rw [keys_nodup_unique hnd hxs hsp']
          exact ⟨y, hy, hyb⟩)
    refine ⟨ys, stuck, rfl, ?_, hstuck⟩
    intro x hx
    refine ⟨hcycfree x hx, ?_⟩
    obtain ⟨_, sp', hsp', _⟩ := hc x hx
    have hin : (x, sp') ∈ ys ++ stuck.map entryPair := hperm.mem_iff.mpr hsp'
    rcases List.mem_append.mp hin with h' | h'
    · exact absurd (List.mem_map_of_mem Prod.fst h') (hcycfree x hx)
    · obtain ⟨en, hen, heq⟩ := List.mem_map.mp h'
      refine List.mem_map.mpr ⟨en, hen, ?_⟩
      have := congrArg Prod.fst heq
      simpa [entryPair] using this

/-- C3, witness.  The amended claim applied to the mutual two-cycle of the
original claim: `A (bases [B])`, `B (bases [A])` always fails, with both
records stuck and neither emitted. -/
theorem c3_witness :
    ∃ ys stuck,
      topological_iteritems [("A", ⟨["B"], 0⟩), ("B", ⟨["A"], 1⟩)] [] =
          .cyclic ys stuck ∧
        (∀ x ∈ ["A", "B"], x ∉ ys.map Prod.fst ∧
          x ∈ stuck.map (fun en => en.1)) ∧
        ∀ en ∈ stuck, en.2.2 ≠ [] ∧ ∀ b ∈ en.2.2, b ∈ en.2.1.bases :=
  c3_cycles_always_fail [("A", ⟨["B"], 0⟩), ("B", ⟨["A"], 1⟩)] [] ["A", "B"]
    (by decide) (by decide)
    (by
      intro x hx
      refine ⟨List.not_mem_nil x, ?_⟩
      rcases List.mem_cons.mp hx with rfl | hx
      · exact ⟨⟨["B"], 0⟩, by decide, "B", by decide, by decide⟩
      · rcases List.mem_cons.mp hx with rfl | hx
        · exact ⟨⟨["A"], 1⟩, by decide, "A", by decide, by decide⟩
        · exact absurd hx (List.not_mem_nil x))

/-! ### model.py : type descriptors (`TypeInfo`) -/

/-- Keys of `TO_SCHEMATICS_TYPE` (model.py, lines 21-34): the recognised
kind names that can appear under the `simple` key. -/
def TO_SCHEMATICS_TYPE_keys : List String :=
  ["string", "integer", "float", "long", "date", "timestamp", "date_time",
    "boolean", "model", "list", "dict", "base"]

/-- The converted data of a `TypeInfo` model (model.py, lines 113-117
together with the two `append_field` calls at lines 186-187): the four
fields `simple`, `model`, `list`, `dict`.  `simple` and `model` hold a
string or None; `list` and `dict` hold a nested `TypeInfo` or None. -/
inductive TypeInfoT where
  | mk (simple : Option String) (model : Option String)
      (listF : Option TypeInfoT) (dictF : Option TypeInfoT)

def TypeInfoT.simple : TypeInfoT → Option String
  | .mk s _ _ _ => s

def TypeInfoT.model : TypeInfoT → Option String
  | .mk _ m _ _ => m

def TypeInfoT.listF : TypeInfoT → Option TypeInfoT
  | .mk _ _ l _ => l

def TypeInfoT.dictF : TypeInfoT → Option TypeInfoT
  | .mk _ _ _ d => d

/-- Python truthiness of an optional string: None and the empty string are
falsy. -/
def pyTruthyStr : Option String → Bool
  | none => false
  | some s => !(s == "")

/-- Truthiness of the serialized form of a nested `TypeInfo`
(`data.get(type_key)` over `self.to_primitive()` in `TypeInfo.type`): the
nested model serializes to a dict of its non-None fields, truthy exactly
when some field is present. -/
def primNonempty : TypeInfoT → Bool
  | .mk s m l d => s.isSome || m.isSome || l.isSome || d.isSome

def truthyPrimOpt : Option TypeInfoT → Bool
  | none => false
  | some t => primNonempty t

/-- `TypeInfo.type()` (model.py, lines 142-147): the first key of
`TYPE_KEYS` whose serialized value is truthy, if any.  Python iterates the
frozenset in an unspecified order; the check here is in declaration order,
immaterial once the mutual-exclusivity validation has passed. -/
def TypeInfoT.pytype : TypeInfoT → Option String
  | .mk s m l d =>
    if pyTruthyStr s then some "simple"
    else if pyTruthyStr m then some "model"
    else if truthyPrimOpt l then some "list"
    else if truthyPrimOpt d then some "dict"
    else none

/-- `TypeInfo.requires_context` (model.py, lines 149-156).  The `none`
fallbacks inside the `list`/`dict` arms are unreachable: `pytype` only
returns those keys when the nested descriptor is present. -/
def TypeInfoT.requires_context : TypeInfoT → Bool
  | .mk s m l d =>
    match TypeInfoT.pytype (.mk s m l d) with
    | some "model" => true
    | some "list" =>
      match l with
      | some inner => inner.requires_context
      | none => false
    | some "dict" =>
      match d with
      | some inner => inner.requires_context
      | none => false
    | _ => false

/-- Structured stand-ins for the exceptions model.py raises.
`modelNotFound v` models
`AcspecContextError` with message `Model ... not found` formatted from `v`:
the payload is exactly the value the source interpolates, which in the
not-found branch of `schematics_field_descriptor` is `model_class` - the
failed lookup result, i.e. Python None - and not the record name that was
looked up. -/
inductive PyErr where
  | contextNone                        -- AcspecContextError: no context provided
  | modelNotFound (formatted : Option String)
  | keyError (key : Option String)     -- TO_SCHEMATICS_TYPE[...] lookup failure
  | unknownFieldType (key : Option String)  -- TypeError: unknown field type
  | missingBaseClassMapping (base : String)
  | fieldMustBeBaseType                -- TypeError raised by append_field
  | fieldsAttrNotTable (cls : String)  -- the attribute holding the field table was rebound
  | unknownClass (cls : String)
deriving DecidableEq, Repr

/-- A materialized schematics field, the result of
`TO_SCHEMATICS_TYPE[...](...)`.  The per-field options (`**kwargs`) are
carried opaquely; a model reference carries the identity of the record type
returned by the context lookup. -/
inductive SField where
  | simpleF (kind : String) (kwargs : List (String × Nat))
  | listF (inner : SField) (kwargs : List (String × Nat))
  | dictF (inner : SField) (kwargs : List (String × Nat))
  | modelF (model_class : String) (kwargs : List (String × Nat))
deriving DecidableEq, Repr

/-- Modelled from the spec: the resolution context (the Acspec object of
`acspec/base.py`, which is not among the sources) exposes
`get_model_class`, the lookup of a record name in the Registry - it
"looks up the name in the context's registry" (spec 4.1), the Registry
being the "mapping from record name to RecordType" (spec 3).  A RecordType
is identified here by its class name. -/
structure Context where
  registry : List (String × String)
deriving DecidableEq, Repr

def Context.get_model_class (c : Context) (name : String) : Option String :=
  (c.registry.find? (fun p => p.1 == name)).map Prod.snd

/-- `TypeInfo.schematics_field_descriptor` (model.py, lines 158-184).
The nested `list`/`dict` descriptor is materialized with the same context
but with no kwargs (the source only forwards `context=`).  In the `model`
arm the source first demands a context, then looks the name up and, when
the lookup fails, raises formatting the lookup result (None) into the
message.  The fallbacks for an absent nested descriptor model the lookup
`TO_SCHEMATICS_TYPE[None]`/attribute failure on the unreachable paths. -/
def TypeInfoT.schematics_field_descriptor :
    TypeInfoT → Option Context → List (String × Nat) → Except PyErr SField
  | .mk s m l d, context, kwargs =>
    match TypeInfoT.pytype (.mk s m l d) with
    | some "simple" =>
      match s with
      | some kind =>
        if TO_SCHEMATICS_TYPE_keys.contains kind then .ok (.simpleF kind kwargs)
        else .error (.keyError (some kind))
      | none => .error (.keyError none)
    | some "list" =>
      match l with
      | some inner =>
        (TypeInfoT.schematics_field_descriptor inner context []).map
          (fun i => .listF i kwargs)
      | none => .error (.keyError none)
    | some "dict" =>
      match d with
      | some inner =>
        (TypeInfoT.schematics_field_descriptor inner context []).map
          (fun i => .dictF i kwargs)
      | none => .error (.keyError none)
    | some "model" =>
      match context with
      | none => .error .contextNone
      | some ctx =>
        match ctx.get_model_class (m.getD "") with
        | none => .error (.modelNotFound none)
        | some model_class => .ok (.modelF model_class kwargs)
    | some other => .error (.unknownFieldType (some other))
    | none => .error (.unknownFieldType none)

/-- C5.  A record-reference descriptor materialized with a null context
fails with the context error; with a context whose registry lacks the name
it fails with a context error - but the message interpolates the failed
lookup result (None), not the missing record name, so the error does not
name the missing record as the claim states; with the name present it
returns a reference type bound to the found record type. -/
theorem c5_model_ref_materialization :
    TypeInfoT.schematics_field_descriptor (.mk none (some "author") none none)
        none [] = .error .contextNone ∧
      TypeInfoT.schematics_field_descriptor (.mk none (some "author") none none)
        (some ⟨[]⟩) [] = .error (.modelNotFound none) ∧
      TypeInfoT.schematics_field_descriptor (.mk none (some "author") none none)
        (some ⟨[("author", "AuthorModel")]⟩) [] = .ok (.modelF "AuthorModel" []) :=
  ⟨rfl, rfl, rfl⟩

/-! ### model.py : `validate_dict` (C8) -/

/-- `TYPE_KEYS` (model.py, line 91). -/
def TYPE_KEYS : List String := ["simple", "model", "list", "dict"]

/-- The truthy keys of the converted data dict, in field order
(model.py line 130: the keys `e` of `data` with `data[e]` truthy).  The
Python set structure only feeds a cardinality test and a sort, for which
the list is an equivalent model.  String fields are truthy when non-empty;
a present nested `TypeInfo` instance is truthy. -/
def populatedTypeKeys : TypeInfoT → List String
  | .mk s m l d =>
    (if pyTruthyStr s then ["simple"] else []) ++
      (if pyTruthyStr m then ["model"] else []) ++
        (if l.isSome then ["list"] else []) ++
          (if d.isSome then ["dict"] else [])

/-- `r.sort()` inside `_type_keys_message` (model.py line 101), specialised
to subsets of `TYPE_KEYS`: alphabetically dict < list < model < simple, so
sorting such a subset is selecting from the sorted universe. -/
def sortedTypeKeys (tk : List String) : List String :=
  ["dict", "list", "model", "simple"].filter (fun k => tk.contains k)

/-- The shape errors raised by `validate_dict`.  `multipleTypes` carries the
sorted key list `_type_keys_message` interpolates into
`Cannot have multiple types`; the optional YAML node positions the helper
may append only describe the input document and are omitted.  `missingType`
stands for the `Missing one field of ...` error, whose message enumerates
`TYPE_KEYS` in unspecified set order. -/
inductive ShapeErr where
  | multipleTypes (named : List String)
  | missingType
deriving DecidableEq, Repr

/-- `TypeInfo.validate_dict` (model.py, lines 124-140), the validator hook
schematics runs for the last-added field.  `value` is the value under
validation, returned unchanged on success.  The second Python condition
`not type_keys or not any(...)` collapses to emptiness of `type_keys`,
since its elements are non-empty string literals. -/
def validate_dict (t : TypeInfoT) (value : Nat) : Except ShapeErr Nat :=
  let type_keys := (populatedTypeKeys t).filter (fun k => TYPE_KEYS.contains k)
  if 1 < type_keys.length then
    .error (.multipleTypes (sortedTypeKeys type_keys))
  else if type_keys = [] then
    .error .missingType
  else .ok value

theorem populatedTypeKeys_subset (t : TypeInfoT) :
    ∀ k ∈ populatedTypeKeys t, k ∈ TYPE_KEYS := by
  obtain ⟨s, m, l, d⟩ := t
  intro k hk
  have hsingle : ∀ (c : Bool) (x : String), k ∈ (if c then [x] else ([] : List String)) →
      k = x := by
    intro c x h
    split at h
    · simpa using h
    · exact absurd h (List.not_mem_nil _)
  simp only [populatedTypeKeys, List.mem_append] at hk
  rcases hk with ((hk | hk) | hk) | hk
  · rw [hsingle _ _ hk]; simp [TYPE_KEYS]
  · rw [hsingle _ _ hk]; simp [TYPE_KEYS]
  · rw [hsingle _ _ hk]; simp [TYPE_KEYS]
  · rw [hsingle _ _ hk]; simp [TYPE_KEYS]

theorem filter_typekeys (t : TypeInfoT) :
    (populatedTypeKeys t).filter (fun k => TYPE_KEYS.contains k) =
      populatedTypeKeys t := by
  rw [List.filter_eq_self]
  intro k hk
  simpa using populatedTypeKeys_subset t k hk

theorem mem_sortedTypeKeys {tk : List String} (hsub : ∀ k ∈ tk, k ∈ TYPE_KEYS) :
    ∀ k, k ∈ sortedTypeKeys tk ↔ k ∈ tk := by
  intro k
  simp only [sortedTypeKeys, List.mem_filter]
  constructor
  · rintro ⟨_, hk⟩
    simpa using hk
  · intro hk
    refine ⟨?_, by simpa using hk⟩
    have hmem := hsub k hk
    simp only [TYPE_KEYS, List.mem_cons, List.not_mem_nil, or_false] at hmem
    simp only [List.mem_cons, List.not_mem_nil, or_false]
    tauto

/-- C8.  Validation of a type descriptor fails with a shape error naming
the populated variant keys (sorted) when more than one of `simple`,
`model`, `list`, `dict` is populated - the named list enumerates exactly
the populated keys; it fails with the missing-type shape error when none
is populated; and with exactly one populated key it succeeds, returning the
value unchanged. -/
theorem c8_validate_dict_shape (t : TypeInfoT) (v : Nat) :
    (1 < (populatedTypeKeys t).length →
        validate_dict t v =
            .error (.multipleTypes (sortedTypeKeys (populatedTypeKeys t))) ∧
          ∀ k, k ∈ sortedTypeKeys (populatedTypeKeys t) ↔ k ∈ populatedTypeKeys t) ∧
    (populatedTypeKeys t = [] → validate_dict t v = .error .missingType) ∧
    ((populatedTypeKeys t).length = 1 → validate_dict t v = .ok v) := by
  have hfe := filter_typekeys t
  refine ⟨fun h1 => ⟨?_, mem_sortedTypeKeys (populatedTypeKeys_subset t)⟩,
    fun h0 => ?_, fun hone => ?_⟩
  · simp only [validate_dict, hfe]
    rw [if_pos h1]
  · simp only [validate_dict, hfe]
    rw [if_neg (by rw [h0]; simp), if_pos h0]
  · simp only [validate_dict, hfe]
    rw [if_neg (by omega), if_neg (by
      intro h0
      rw [h0] at hone
      simp at hone)]

/-- C8, witness.  The theorem applied to the scalar-plus-list descriptor of
the claim (fails naming both keys, `list` then `simple` in sorted order), to
a single-key descriptor (succeeds), and to the empty descriptor (fails with
the missing-type error). -/
theorem c8_witness :
    validate_dict
        (.mk (some "string") none (some (.mk (some "string") none none none)) none) 7 =
        .error (.multipleTypes ["list", "simple"]) ∧
      validate_dict (.mk (some "string") none none none) 7 = .ok 7 ∧
      validate_dict (.mk none none none none) 7 = .error .missingType :=
  ⟨((c8_validate_dict_shape
        (.mk (some "string") none (some (.mk (some "string") none none none)) none) 7).1
      (by decide)).1,
    (c8_validate_dict_shape (.mk (some "string") none none none) 7).2.2 (by decide),
    (c8_validate_dict_shape (.mk none none none none) 7).2.1 (by decide)⟩

/-! ### model.py : classes and the field injector (`BaseModel.append_field`) -/

/-- A schematics field value as `append_field` manipulates it: the
materialized type content (`descr`), the owner back-reference
(`owner_model`), the field name (`field.name` in the source), and - for
compound types carrying an inner `field` attribute - the owner recorded on
that inner field. -/
structure FieldV where
  descr : SField
  owner_model : String
  fname : String
  inner_owner : Option String
deriving DecidableEq, Repr

/-- An entry of the class namespace (`cls.__dict__`) that `append_field`
touches: either the `_fields` ordered field table, or an exposed
`FieldDescriptor(name)` accessor. -/
inductive PyAttr where
  | table (fields : List (String × FieldV))
  | accessor (fname : String)
deriving DecidableEq, Repr

/-- The slice of a live class that `append_field` reads and writes: its
namespace and its `_subclasses` registry (subclasses are identified by
their name in the class world). -/
structure MClass where
  ns : List (String × PyAttr)
  subclasses : List String
deriving DecidableEq, Repr

/-- The mutable world of classes, keyed by class name.  In-place mutation of
Python objects is modelled by returning the updated world. -/
abbrev ClassTable := List (String × MClass)

/-- Python dict read `d.get(k)` / `d[k]`. -/
def dictGet? {α : Type} : List (String × α) → String → Option α
  | [], _ => none
  | p :: rest, k => if p.1 == k then some p.2 else dictGet? rest k

/-- Python dict assignment `d[k] = v`: overwrite in place when the key is
present (keeping its position), append at the end otherwise.  (Keys are
unique in every dict built here, so replacing the first occurrence is
exact.) -/
def dictSet {α : Type} : List (String × α) → String → α → List (String × α)
  | [], k, v => [(k, v)]
  | p :: rest, k, v => if p.1 == k then (k, v) :: rest else p :: dictSet rest k v

theorem dictGet_dictSet_self {α : Type} (l : List (String × α)) (k : String) (v : α) :
    dictGet? (dictSet l k v) k = some v := by
  induction l with
  | nil => simp [dictSet, dictGet?]
  | cons p rest ih =>
    by_cases h : p.1 == k
    · simp [dictSet, dictGet?, h]
    · simp [dictSet, dictGet?, h, ih]

theorem dictGet_dictSet_ne {α : Type} (l : List (String × α)) {k k' : String} (v : α)
    (h : k' ≠ k) : dictGet? (dictSet l k v) k' = dictGet? l k' := by
  have hkk : ¬((k == k') = true) := by
    simpa using Ne.symm h
  induction l with
  | nil =>
    simp only [dictSet, dictGet?]
    rw [if_neg hkk]
  | cons p rest ih =>
    obtain ⟨pk, pv⟩ := p
    by_cases hp : pk == k
    · have hpk : pk = k := by simpa using hp
      subst hpk
      simp only [dictSet, beq_self_eq_true, if_true, dictGet?]
      simp only [if_neg hkk]
    · simp [dictSet, hp, dictGet?, ih]

/-- Whether a schematics field object carries an inner `field` attribute
(`hasattr(field, 'field')`): true for the compound list and dict types. -/
def hasInnerField : SField → Bool
  | .listF .. => true
  | .dictF .. => true
  | _ => false

/-- The argument passed to `append_field`: an actual schematics field
(an instance of `BaseType`) or anything else. -/
inductive PyFieldArg where
  | base (f : FieldV)
  | nonField (v : Nat)
deriving DecidableEq, Repr

/-- The updated state of a subclass that receives a structural copy
(`metacopy`) of the injected field, owned by the subclass itself
(model.py, lines 72-73). -/
def subCopyUpdate (sc : MClass) (st : List (String × FieldV)) (f : FieldV)
    (name sub : String) : MClass :=
  { sc with ns := dictSet sc.ns "_fields" (.table (dictSet st name { f with owner_model := sub })) }

/-- The subclass loop of `append_field` (model.py, lines 68-73): for every
known subclass that does not already define the field name, store a
structural copy of the field (`metacopy`) in the subclass's field table and
point the copy's owner at the subclass. -/
def copy_to_subclasses (f : FieldV) (name : String) :
    List String → ClassTable → Except PyErr ClassTable
  | [], acc => .ok acc
  | sub :: rest, acc =>
    match dictGet? acc sub with
    | none => .error (.unknownClass sub)
    | some sc =>
      match dictGet? sc.ns "_fields" with
      | some (.table st) =>
        if (dictGet? st name).isSome then
          copy_to_subclasses f name rest acc
        else
          copy_to_subclasses f name rest (dictSet acc sub (subCopyUpdate sc st f name sub))
      | _ => .error (.fieldsAttrNotTable sub)

/-- The owner/name assignments `append_field` performs on the incoming field
(model.py, lines 58-62): set `owner_model` and `name`, and for a compound
field also the owner of its inner `field`. -/
def prepField (f0 : FieldV) (cls name : String) : FieldV :=
  { f0 with
    owner_model := cls
    fname := name
    inner_owner := if hasInnerField f0.descr then some cls else f0.inner_owner }

/-- The class after `cls._fields[name] = field` (model.py, line 64). -/
def tableUpdate (c : MClass) (t : List (String × FieldV)) (name : String)
    (f : FieldV) : MClass :=
  { c with ns := dictSet c.ns "_fields" (.table (dictSet t name f)) }

/-- The descriptor exposure (model.py, lines 75-80): a `FieldDescriptor(name)`
is bound on the class - under `"_" ++ name` when the name is the reserved
`fields`, else under the name itself. -/
def exposeDescriptor (c2 : MClass) (name : String) : MClass :=
  if name == "fields" then
    { c2 with ns := dictSet c2.ns ("_" ++ name) (.accessor name) }
  else
    { c2 with ns := dictSet c2.ns name (.accessor name) }

/-- `BaseModel.append_field` (model.py, lines 55-82) acting on the class
world.  In source order: reject non-field values (`TypeError`); set the
field's owner and name; write the field into the `_fields` table of `cls`;
copy it into every known subclass that does not already define the name;
finally expose the accessor.  In the reserved-name case the exposure rebinds
the very attribute that holds the field table. -/
def append_field (tbl : ClassTable) (cls : String) (name : String)
    (arg : PyFieldArg) : Except PyErr ClassTable :=
  match arg with
  | .nonField _ => .error .fieldMustBeBaseType
  | .base f0 =>
    match dictGet? tbl cls with
    | none => .error (.unknownClass cls)
    | some c =>
      match dictGet? c.ns "_fields" with
      | some (.table t) =>
        match copy_to_subclasses (prepField f0 cls name) name c.subclasses
            (dictSet tbl cls (tableUpdate c t name (prepField f0 cls name))) with
        | .error e => .error e
        | .ok tbl2 =>
          match dictGet? tbl2 cls with
          | none => .error (.unknownClass cls)
          | some c2 => .ok (dictSet tbl2 cls (exposeDescriptor c2 name))
      | _ => .error (.fieldsAttrNotTable cls)

/-- Behaviour of the subclass loop on a world in which every listed
subclass is present with an intact field table: it succeeds; classes not in
the list are untouched; a listed subclass that already defines the name is
left exactly as it was; a listed subclass that does not is updated with a
copy of the field owned by that subclass. -/
theorem table_inj {st st' : List (String × FieldV)}
    (h : PyAttr.table st = PyAttr.table st') : st = st' := by
  injection h

theorem copy_subs_spec (f : FieldV) (name : String) :
    ∀ (subs : List String) (acc : ClassTable),
      (∀ s ∈ subs, ∃ sc st, dictGet? acc s = some sc ∧
          dictGet? sc.ns "_fields" = some (.table st)) →
      ∃ out, copy_to_subclasses f name subs acc = .ok out ∧
        (∀ k, k ∉ subs → dictGet? out k = dictGet? acc k) ∧
        (∀ s sc st, s ∈ subs → dictGet? acc s = some sc →
            dictGet? sc.ns "_fields" = some (.table st) →
            (dictGet? st name).isSome = true → dictGet? out s = some sc) ∧
        (∀ s sc st, s ∈ subs → dictGet? acc s = some sc →
            dictGet? sc.ns "_fields" = some (.table st) →
            (dictGet? st name).isSome = false →
            dictGet? out s = some (subCopyUpdate sc st f name s)) := by
  intro subs
  induction subs with
  | nil =>
    intro acc _
    exact ⟨acc, rfl, fun k _ => rfl,
      fun s _ _ h => absurd h (List.not_mem_nil _),
      fun s _ _ h => absurd h (List.not_mem_nil _)⟩
  | cons sub rest ih =>
    intro acc hwf
    obtain ⟨sc, st, hsc, hst⟩ := hwf sub (List.mem_cons_self _ _)
    by_cases hpres : (dictGet? st name).isSome = true
    · -- the subclass already defines the field: skip it
      obtain ⟨out, heq, hunt, h3, h4⟩ := ih acc
        (fun s hs => hwf s (List.mem_cons_of_mem _ hs))
      refine ⟨out, ?_, ?_, ?_, ?_⟩
      · simp only [copy_to_subclasses, hsc, hst, hpres, if_true]
        exact heq
      · intro k hk
        exact hunt k (fun h => hk (List.mem_cons_of_mem _ h))
      · intro s sc₀ st₀ hmem hsc₀ hst₀ hp
        by_cases hr : s ∈ rest
        · exact h3 s sc₀ st₀ hr hsc₀ hst₀ hp
        · rw [hunt s hr, hsc₀]
      · intro s sc₀ st₀ hmem hsc₀ hst₀ hnp
        by_cases hr : s ∈ rest
        · exact h4 s sc₀ st₀ hr hsc₀ hst₀ hnp
        · exfalso
          have hs : s = sub := by
            rcases List.mem_cons.mp hmem with h | h
            · exact h
            · exact absurd h hr
          subst hs
          have hsceq : sc₀ = sc := Option.some.inj (hsc₀.symm.trans hsc)
          subst hsceq
          have hsteq : st₀ = st := table_inj (Option.some.inj (hst₀.symm.trans hst))
          subst hsteq
          rw [hpres] at hnp
          exact absurd hnp (by simp)
    · -- the subclass does not define the field: inject the copy
      have hpres' : (dictGet? st name).isSome = false := by
        simpa using hpres
      have hwf' : ∀ s ∈ rest,
          ∃ c t, dictGet? (dictSet acc sub (subCopyUpdate sc st f name sub)) s = some c ∧
            dictGet? c.ns "_fields" = some (.table t) := by
        intro s hs
        by_cases hseq : s = sub
        · subst hseq
          exact ⟨subCopyUpdate sc st f name s, dictSet st name { f with owner_model := s },
            dictGet_dictSet_self _ _ _, dictGet_dictSet_self _ _ _⟩
        · obtain ⟨c, t, hc, ht⟩ := hwf s (List.mem_cons_of_mem _ hs)
          exact ⟨c, t, by rw [dictGet_dictSet_ne _ _ hseq]; exact hc, ht⟩
      obtain ⟨out, heq, hunt, h3, h4⟩ :=
        ih (dictSet acc sub (subCopyUpdate sc st f name sub)) hwf'
      refine ⟨out, ?_, ?_, ?_, ?_⟩
      · simp only [copy_to_subclasses, hsc, hst, hpres', Bool.false_eq_true, if_false]
        exact heq
      · intro k hk
        have hk1 : k ≠ sub := fun h => hk (h ▸ List.mem_cons_self _ _)
        have hk2 : k ∉ rest := fun h => hk (List.mem_cons_of_mem _ h)
        rw [hunt k hk2, dictGet_dictSet_ne _ _ hk1]
      · intro s sc₀ st₀ hmem hsc₀ hst₀ hp
        by_cases hseq : s = sub
        · exfalso
          subst hseq
          have hsceq : sc₀ = sc := Option.some.inj (hsc₀.symm.trans hsc)
          subst hsceq
          have hsteq : st₀ = st := table_inj (Option.some.inj (hst₀.symm.trans hst))
          subst hsteq
          rw [hpres'] at hp
          exact absurd hp (by simp)
        · have hr : s ∈ rest := by
            rcases List.mem_cons.mp hmem with h | h
            · exact absurd h hseq
            · exact h
          exact h3 s sc₀ st₀ hr
            (by rw [dictGet_dictSet_ne _ _ hseq]; exact hsc₀) hst₀ hp
      · intro s sc₀ st₀ hmem hsc₀ hst₀ hnp
        by_cases hseq : s = sub
        · subst hseq
          have hsceq : sc₀ = sc := Option.some.inj (hsc₀.symm.trans hsc)
          subst hsceq
          have hsteq : st₀ = st := table_inj (Option.some.inj (hst₀.symm.trans hst))
          subst hsteq
          by_cases hr : s ∈ rest
          · have hstep := h3 s (subCopyUpdate sc₀ st₀ f name s)
              (dictSet st₀ name { f with owner_model := s }) hr
              (dictGet_dictSet_self _ _ _) (dictGet_dictSet_self _ _ _)
              (by rw [dictGet_dictSet_self]; rfl)
            rw [hstep]
          · rw [hunt s hr, dictGet_dictSet_self]
        · have hr : s ∈ rest := by
            rcases List.mem_cons.mp hmem with h | h
            · exact absurd h hseq
            · exact h
          exact h4 s sc₀ st₀ hr
            (by rw [dictGet_dictSet_ne _ _ hseq]; exact hsc₀) hst₀ hnp

/-- C6, counterexample.  The claim quantifies over every injected field name
`x`.  At the reserved name `fields` (first conjunct) the final exposure
rebinds the parent's `_fields` attribute - the attribute holding its field
table - to the accessor, so the parent no longer exposes any field table at
all while the subclass does: the two classes do not both expose the field.
The alias `_fields` itself (second conjunct) clobbers the table just the
same, so the amendment must exclude both names. -/
theorem c6_counterexample :
    append_field
        [("A", ⟨[("_fields", .table [])], ["B"]⟩), ("B", ⟨[("_fields", .table [])], []⟩)]
        "A" "fields" (.base ⟨.simpleF "string" [], "", "", none⟩) =
      .ok [("A", ⟨[("_fields", .accessor "fields")], ["B"]⟩),
        ("B", ⟨[("_fields", .table
          [("fields", ⟨.simpleF "string" [], "B", "fields", none⟩)])], []⟩)] ∧
    append_field [("C", ⟨[("_fields", .table [])], []⟩)] "C" "_fields"
        (.base ⟨.simpleF "string" [], "", "", none⟩) =
      .ok [("C", ⟨[("_fields", .accessor "_fields")], []⟩)] :=
  ⟨rfl, rfl⟩

/-- C6 (amended).  For every class world, base class `A` with intact field
table, pre-existing subclass `B` of `A` that does not yet define the field
name `x`, and every `x` other than the reserved name `fields` and its alias
`_fields`: injecting `x` into `A` succeeds, and afterwards both `A` and `B`
hold a field named `x` in their field tables whose descriptors are
structurally equal (same type content, same name, same inner-owner) and
whose owner back-references point at `A` and `B` respectively, as the
injector prescribes; every subclass that already defines `x` is left
completely unchanged. -/
theorem c6_field_propagation (tbl : ClassTable) (clsA clsB x : String)
    (f0 : FieldV) (a : MClass) (ta : List (String × FieldV)) (b : MClass)
    (tb : List (String × FieldV))
    (hx1 : x ≠ "fields") (hx2 : x ≠ "_fields")
    (hA : dictGet? tbl clsA = some a)
    (hAt : dictGet? a.ns "_fields" = some (.table ta))
    (hAs : clsA ∉ a.subclasses)
    (hB : clsB ∈ a.subclasses)
    (hBt : dictGet? tbl clsB = some b)
    (hBtab : dictGet? b.ns "_fields" = some (.table tb))
    (hBx : (dictGet? tb x).isSome = false)
    (hsubs : ∀ s ∈ a.subclasses, ∃ sc st, dictGet? tbl s = some sc ∧
        dictGet? sc.ns "_fields" = some (.table st)) :
    ∃ tbl' fA fB, append_field tbl clsA x (.base f0) = .ok tbl' ∧
      (∃ a' ta', dictGet? tbl' clsA = some a' ∧
          dictGet? a'.ns "_fields" = some (.table ta') ∧ dictGet? ta' x = some fA) ∧
      (∃ b' tb', dictGet? tbl' clsB = some b' ∧
          dictGet? b'.ns "_fields" = some (.table tb') ∧ dictGet? tb' x = some fB) ∧
      fA.descr = fB.descr ∧ fA.fname = x ∧ fB.fname = x ∧
      fA.inner_owner = fB.inner_owner ∧
      fA.owner_model = clsA ∧ fB.owner_model = clsB ∧
      (∀ s sc st, s ∈ a.subclasses → dictGet? tbl s = some sc →
          dictGet? sc.ns "_fields" = some (.table st) →
          (dictGet? st x).isSome = true → dictGet? tbl' s = some sc) := by
  have hAB : clsA ≠ clsB := fun h => hAs (h ▸ hB)
  have hwf1 : ∀ s ∈ a.subclasses, ∃ sc st,
      dictGet? (dictSet tbl clsA (tableUpdate a ta x (prepField f0 clsA x))) s =
        some sc ∧ dictGet? sc.ns "_fields" = some (.table st) := by
    intro s hs
    have hsne : s ≠ clsA := fun h => hAs (h ▸ hs)
    obtain ⟨sc, st, hsc, hst⟩ := hsubs s hs
    exact ⟨sc, st, by rw [dictGet_dictSet_ne _ _ hsne]; exact hsc, hst⟩
  obtain ⟨out, heq, hunt, h3, h4⟩ := copy_subs_spec (prepField f0 clsA x) x
    a.subclasses (dictSet tbl clsA (tableUpdate a ta x (prepField f0 clsA x))) hwf1
  have hOutA : dictGet? out clsA = some (tableUpdate a ta x (prepField f0 clsA x)) := by
    rw [hunt clsA hAs, dictGet_dictSet_self]
  have hxf : (x == "fields") = false := by
    simpa using hx1
  refine ⟨dictSet out clsA
      (exposeDescriptor (tableUpdate a ta x (prepField f0 clsA x)) x),
    prepField f0 clsA x, { prepField f0 clsA x with owner_model := clsB },
    ?_, ?_, ?_, rfl, rfl, rfl, rfl, rfl, rfl, ?_⟩
  · simp only [append_field, hA, hAt, heq, hOutA]
  · refine ⟨exposeDescriptor (tableUpdate a ta x (prepField f0 clsA x)) x,
      dictSet ta x (prepField f0 clsA x), dictGet_dictSet_self _ _ _, ?_,
      dictGet_dictSet_self _ _ _⟩
    simp only [exposeDescriptor, hxf, Bool.false_eq_true, if_false, tableUpdate]
    rw [dictGet_dictSet_ne _ _ (Ne.symm hx2), dictGet_dictSet_self]
  · have hBtbl1 : dictGet?
        (dictSet tbl clsA (tableUpdate a ta x (prepField f0 clsA x))) clsB = some b := by
      rw [dictGet_dictSet_ne _ _ (Ne.symm hAB)]
      exact hBt
    have hOutB := h4 clsB b tb hB hBtbl1 hBtab hBx
    refine ⟨subCopyUpdate b tb (prepField f0 clsA x) x clsB,
      dictSet tb x { prepField f0 clsA x with owner_model := clsB }, ?_, ?_,
      dictGet_dictSet_self _ _ _⟩
    · rw [dictGet_dictSet_ne _ _ (Ne.symm hAB)]
      exact hOutB
    · simp only [subCopyUpdate]
      exact dictGet_dictSet_self _ _ _
  · intro s sc st hs hsc hst hpres
    have hsne : s ≠ clsA := fun h => hAs (h ▸ hs)
    have hsc1 : dictGet?
        (dictSet tbl clsA (tableUpdate a ta x (prepField f0 clsA x))) s = some sc := by
      rw [dictGet_dictSet_ne _ _ hsne]
      exact hsc
    have hout := h3 s sc st hs hsc1 hst hpres
    rw [dictGet_dictSet_ne _ _ hsne]
    exact hout

/-- C6, witness.  The amended claim applied to a concrete world: class `A`
with subclass `B`, both with empty field tables, and the ordinary field name
`color`. -/
theorem c6_witness :
    ∃ tbl' fA fB, append_field
        [("A", ⟨[("_fields", .table [])], ["B"]⟩),
          ("B", ⟨[("_fields", .table [])], []⟩)]
        "A" "color" (.base ⟨.simpleF "string" [], "", "", none⟩) = .ok tbl' ∧
      (∃ a' ta', dictGet? tbl' "A" = some a' ∧
          dictGet? a'.ns "_fields" = some (.table ta') ∧
          dictGet? ta' "color" = some fA) ∧
      (∃ b' tb', dictGet? tbl' "B" = some b' ∧
          dictGet? b'.ns "_fields" = some (.table tb') ∧
          dictGet? tb' "color" = some fB) ∧
      fA.descr = fB.descr ∧ fA.fname = "color" ∧ fB.fname = "color" ∧
      fA.inner_owner = fB.inner_owner ∧
      fA.owner_model = "A" ∧ fB.owner_model = "B" ∧
      (∀ s sc st, s ∈ ["B"] → dictGet?
          [("A", (⟨[("_fields", .table [])], ["B"]⟩ : MClass)),
            ("B", ⟨[("_fields", .table [])], []⟩)] s = some sc →
          dictGet? sc.ns "_fields" = some (.table st) →
          (dictGet? st "color").isSome = true →
          dictGet? tbl' s = some sc) :=
  c6_field_propagation
    [("A", ⟨[("_fields", .table [])], ["B"]⟩), ("B", ⟨[("_fields", .table [])], []⟩)]
    "A" "B" "color" ⟨.simpleF "string" [], "", "", none⟩
    ⟨[("_fields", .table [])], ["B"]⟩ [] ⟨[("_fields", .table [])], []⟩ []
    (by decide) (by decide) rfl rfl (by decide) (by decide) rfl rfl rfl
    (by
      intro s hs
      rcases List.mem_cons.mp hs with rfl | hs
      · exact ⟨⟨[("_fields", .table [])], []⟩, [], rfl, rfl⟩
      · exact absurd hs (List.not_mem_nil _))

/-- C9.  Injecting a field literally named `fields` first records it in the
class's field table, but the final exposure then rebinds the class attribute
`_fields` - the attribute that holds the field table itself - to the
accessor (first conjunct): the table with the recorded field is no longer
reachable from the class.  The record type is not left functional: a
subsequent injection of any field fails because the `_fields` attribute is
no longer the table (second conjunct).  Fields with any other name are
recorded and exposed under their own name (third conjunct). -/
theorem c9_reserved_name_field :
    append_field [("C", ⟨[("_fields", .table [])], []⟩)] "C" "fields"
        (.base ⟨.simpleF "string" [], "", "", none⟩) =
      .ok [("C", ⟨[("_fields", .accessor "fields")], []⟩)] ∧
    append_field [("C", ⟨[("_fields", .accessor "fields")], []⟩)] "C" "other"
        (.base ⟨.simpleF "string" [], "", "", none⟩) =
      .error (.fieldsAttrNotTable "C") ∧
    append_field [("C", ⟨[("_fields", .table [])], []⟩)] "C" "other"
        (.base ⟨.simpleF "string" [], "", "", none⟩) =
      .ok [("C", ⟨[("_fields", .table
          [("other", ⟨.simpleF "string" [], "C", "other", none⟩)]),
        ("other", .accessor "other")], []⟩)] :=
  ⟨rfl, rfl, rfl⟩

/-! ### model.py : `ResolveableModel` (C4) -/

/-- A `MetaFieldDescriptor` as `resolve` consumes it: its `type` descriptor
plus the opaque option kwargs collected by `_kwargs()` (model.py,
lines 190-234). -/
structure MetaFieldDescriptorM where
  type : TypeInfoT
  kwargs : List (String × Nat)

/-- `MetaFieldDescriptor.schematics_field_descriptor` (model.py,
lines 220-224). -/
def MetaFieldDescriptorM.schematics_field_descriptor (m : MetaFieldDescriptorM)
    (context : Option Context) : Except PyErr SField :=
  m.type.schematics_field_descriptor context m.kwargs

/-- `ResolveableModel` (model.py, lines 237-242): the record type under
construction, its deferred context-requiring field specs, and the `resolved`
flag that `__init__` sets to False. -/
structure ResolveableModelM where
  model_class : String
  contextual_type_specs : List (String × MetaFieldDescriptorM)
  resolved : Bool

/-- The loop body of `ResolveableModel.resolve` (model.py, lines 245-249):
materialize each deferred field spec against the context and inject it via
`append_field`. -/
def resolve_fields (cls : String) (context : Context) :
    List (String × MetaFieldDescriptorM) → ClassTable → Except PyErr ClassTable
  | [], tbl => .ok tbl
  | (name, ts) :: rest, tbl =>
    match ts.schematics_field_descriptor (some context) with
    | .error e => .error e
    | .ok sf =>
      match append_field tbl cls name (.base ⟨sf, "", "", none⟩) with
      | .error e => .error e
      | .ok tbl' => resolve_fields cls context rest tbl'

/-- `ResolveableModel.resolve` (model.py, lines 244-251).  The source applies
every deferred field, sets `self.resolved = True` and returns the model
class; at no point does it consult the `resolved` flag. -/
def ResolveableModelM.resolve (m : ResolveableModelM) (tbl : ClassTable)
    (context : Context) : Except PyErr (ClassTable × ResolveableModelM) :=
  match resolve_fields m.model_class context m.contextual_type_specs tbl with
  | .error e => .error e
  | .ok tbl' => .ok (tbl', { m with resolved := true })

/-- C4.  `resolve` never reads the `resolved` flag: the result is the same
whatever the flag's value (first conjunct - in particular a second call is
processed exactly like the first, never rejected).  Concretely, resolving a
pending record with one deferred model-reference field succeeds and marks it
resolved; calling `resolve` again on the already-resolved record with the
same context succeeds again, silently re-applying the deferred field and
returning the identical class world - no already-resolved error exists
anywhere in the code. -/
theorem c4_resolve_never_checks_resolved :
    (∀ (mc : String) (cts : List (String × MetaFieldDescriptorM))
        (b₁ b₂ : Bool) (tbl : ClassTable) (ctx : Context),
        (ResolveableModelM.mk mc cts b₁).resolve tbl ctx =
          (ResolveableModelM.mk mc cts b₂).resolve tbl ctx) ∧
    (ResolveableModelM.mk "Post"
        [("author", ⟨.mk none (some "author") none none, []⟩)] false).resolve
        [("Post", ⟨[("_fields", .table [])], []⟩)] ⟨[("author", "AuthorModel")]⟩ =
      .ok ([("Post", ⟨[("_fields", .table
            [("author", ⟨.modelF "AuthorModel" [], "Post", "author", none⟩)]),
          ("author", .accessor "author")], []⟩)],
        ResolveableModelM.mk "Post"
          [("author", ⟨.mk none (some "author") none none, []⟩)] true) ∧
    (ResolveableModelM.mk "Post"
        [("author", ⟨.mk none (some "author") none none, []⟩)] true).resolve
        [("Post", ⟨[("_fields", .table
            [("author", ⟨.modelF "AuthorModel" [], "Post", "author", none⟩)]),
          ("author", .accessor "author")], []⟩)] ⟨[("author", "AuthorModel")]⟩ =
      .ok ([("Post", ⟨[("_fields", .table
            [("author", ⟨.modelF "AuthorModel" [], "Post", "author", none⟩)]),
          ("author", .accessor "author")], []⟩)],
        ResolveableModelM.mk "Post"
          [("author", ⟨.mk none (some "author") none none, []⟩)] true) := by
  refine ⟨fun mc cts b₁ b₂ tbl ctx => rfl, rfl, rfl⟩

/-! ### model.py : base-class resolution (C7, C10) -/

/-- A Python class object as the capability mapping holds it: its name and
its method-resolution order (the class and its ancestors). -/
structure SClass where
  cname : String
  mro : List String
deriving DecidableEq, Repr

/-- The generic base capability `BaseModel` (model.py, line 53). -/
def BaseModelC : SClass :=
  ⟨"BaseModel", ["BaseModel", "Model", "object"]⟩

/-- `DontSerializeWhenNoneModel` (model.py, lines 85-88), a subclass of
`BaseModel`. -/
def DontSerializeWhenNoneModelC : SClass :=
  ⟨"DontSerializeWhenNoneModel",
    ["DontSerializeWhenNoneModel", "BaseModel", "Model", "object"]⟩

/-- The ancestry of the *type* of a class object: every schematics model
class is an instance of the schematics metaclass, whose own ancestry is the
metaclass, `type`, `object` - never `BaseModel`. -/
def metaclass_mro (_c : SClass) : List String :=
  ["ModelMeta", "type", "object"]

/-- Python `isinstance(x, BaseModel)` for a class object `x`: true iff the
type of `x` - the metaclass - is `BaseModel` or a subclass of it.  (The
values tested in `_find_base_classes` are the classes of the capability
mapping, not instances.) -/
def isinstance_BaseModel (c : SClass) : Bool :=
  (metaclass_mro c).contains "BaseModel"

/-- `DEFAULT_MAPPINGS` (model.py, lines 254-256). -/
def DEFAULT_MAPPINGS : List (String × SClass) :=
  [("dont_serialize_when_none", DontSerializeWhenNoneModelC)]

/-- The default-merging loop of `_find_base_classes` (model.py,
lines 262-264): insert each default entry into the caller's mapping unless
the key is already present.  The mapping object is mutated in place. -/
def mergeDefaults (cm : List (String × SClass)) : List (String × SClass) :=
  DEFAULT_MAPPINGS.foldl
    (fun acc kv => if (dictGet? acc kv.1).isSome then acc else dictSet acc kv.1 kv.2) cm

/-- The bases loop of `_find_base_classes` (model.py, lines 266-273):
resolve each declared base against the mapping, failing on the first name
without a mapping. -/
def resolve_bases (cm : List (String × SClass)) : List String → Except PyErr (List SClass)
  | [] => .ok []
  | b :: rest =>
    match dictGet? cm b with
    | some c => (resolve_bases cm rest).map (fun r => c :: r)
    | none => .error (.missingBaseClassMapping b)

/-- `_find_base_classes` (model.py, lines 259-283).  Returns the result
together with the final state of the class mapping, which models the
in-place mutation of the caller-supplied dict (the merge happens before any
failure).  The `name` parameter is accepted and unused, as in the source.
The final check appends `BaseModel` unless some resolved base satisfies
`isinstance(base, BaseModel)`. -/
def _find_base_classes (name : String) (spec : RSpec)
    (class_mapping : Option (List (String × SClass))) :
    Except PyErr (List SClass) × List (String × SClass) :=
  let cm := mergeDefaults (class_mapping.getD [])
  match resolve_bases cm spec.bases with
  | .error e => (.error e, cm)
  | .ok r =>
    if r.any (fun base => isinstance_BaseModel base) then (.ok r, cm)
    else (.ok (r ++ [BaseModelC]), cm)

/-- C7.  `isinstance(base, BaseModel)` is evaluated on class objects, whose
type is the schematics metaclass, so it is false for every class (third
conjunct) and the generic base is appended unconditionally: even for a spec
whose sole base resolves to `DontSerializeWhenNoneModel` - which carries
`BaseModel` in its own ancestry (first conjunct) - the resolved base list
still gets `BaseModel` appended (second conjunct), contradicting the
claimed only-if-absent behaviour. -/
theorem c7_base_model_always_appended :
    "BaseModel" ∈ DontSerializeWhenNoneModelC.mro ∧
    (_find_base_classes "post" ⟨["dont_serialize_when_none"], 0⟩ (some [])).1 =
      .ok [DontSerializeWhenNoneModelC, BaseModelC] ∧
    (∀ c : SClass, isinstance_BaseModel c = false) :=
  ⟨by decide, rfl, fun c => rfl⟩

theorem dictSet_absent {α : Type} (l : List (String × α)) (k : String) (v : α)
    (h : dictGet? l k = none) : dictSet l k v = l ++ [(k, v)] := by
  induction l with
  | nil => rfl
  | cons p rest ih =>
    by_cases hp : p.1 == k
    · rw [dictGet?, if_pos hp] at h
      exact absurd h (by simp)
    · rw [dictGet?, if_neg hp] at h
      simp [dictSet, hp, ih h]

theorem find_base_classes_snd (name : String) (spec : RSpec)
    (cm : List (String × SClass)) :
    (_find_base_classes name spec (some cm)).2 = mergeDefaults cm := by
  simp only [_find_base_classes, Option.getD]
  split
  · rfl
  · split <;> rfl

/-- C10.  Resolving any record's bases against a caller-supplied capability
mapping that lacks the default key `dont_serialize_when_none` inserts the
default entry into that very mapping: after the call the mapping contains
the key and is no longer equal to the mapping that was supplied - it is
consulted read-write, not read-only.  (The in-place dict mutation is
modelled by the mapping component of the result.) -/
theorem c10_class_mapping_mutated (name : String) (spec : RSpec)
    (cm : List (String × SClass))
    (h : dictGet? cm "dont_serialize_when_none" = none) :
    (dictGet? ((_find_base_classes name spec (some cm)).2)
        "dont_serialize_when_none").isSome = true ∧
    (_find_base_classes name spec (some cm)).2 ≠ cm := by
  have hmerge : mergeDefaults cm =
      dictSet cm "dont_serialize_when_none" DontSerializeWhenNoneModelC := by
    simp [mergeDefaults, DEFAULT_MAPPINGS, h]
  rw [find_base_classes_snd, hmerge]
  constructor
  · rw [dictGet_dictSet_self]
    rfl
  · rw [dictSet_absent _ _ _ h]
    intro heq
    have hlen := congrArg List.length heq
    simp at hlen

/-- C10, witness.  The theorem applied to the empty caller mapping: after
resolving the bases of any record, the mapping has gained the default
entry. -/
theorem c10_witness :
    (dictGet? ((_find_base_classes "post" ⟨[], 0⟩ (some [])).2)
        "dont_serialize_when_none").isSome = true ∧
    (_find_base_classes "post" ⟨[], 0⟩ (some [])).2 ≠ [] :=
  c10_class_mapping_mutated "post" ⟨[], 0⟩ [] rfl

end Acspec
